import Mathlib

/-!
Verification of the subtitle assembly and utterance-merge engine of
`utils/subtitle_utils.py`: the `time_convert` SRT time formatter, the
`Text2SRT` rendering helper and the `generate_srt` greedy speaker/gap
merge loop.  The Python code is embedded shallowly: Python integers are
`Int` (with floor division and floor modulus, as in Python), Python
`str(...)` on integers is `natToStr` / `intToStr`, Python `str.replace`
is `pyReplace`, the heterogeneous `timestamp` values accepted by the
code are the inductive `TsVal`, and a Python `TypeError` raised by an
operation on a non-numeric value is an `Except.error`.
-/

deriving instance DecidableEq for Except

namespace SubtitleUtils

/-! ### Decimal rendering of integers, as Python `str(...)` -/

/-- The decimal digit character for `n < 10`. -/
def decDigit (n : Nat) : Char := Char.ofNat (48 + n)

/-- Digit list of `n` in base 10, most significant first, prepended to
`acc`.  `fuel` bounds the recursion; any `fuel > n` is enough. -/
def natToStrAux : Nat → Nat → List Char → List Char
  | 0, _, acc => acc
  | fuel + 1, n, acc =>
    if n < 10 then decDigit n :: acc
    else natToStrAux fuel (n / 10) (decDigit (n % 10) :: acc)

/-- Python `str(n)` for a natural number. -/
def natToStr (n : Nat) : String := ⟨natToStrAux (n + 1) n []⟩

/-- Python `str(i)` for an integer: a minus sign followed by the digits
of the absolute value when `i < 0`. -/
def intToStr (i : Int) : String :=
  if i < 0 then "-" ++ natToStr i.natAbs else natToStr i.toNat

/-! ### `time_convert` -/

/-- Python `//`: floor division. -/
def pyDiv (a b : Int) : Int := Int.fdiv a b

/-- Python `%`: floor modulus. -/
def pyMod (a b : Int) : Int := Int.fmod a b

/-- Python `str.zfill w`: left-pad with zeros to width `w` (the inputs
this file passes are non-negative, so the sign case of `zfill` is dead
and not modelled). -/
def zfill (w : Nat) (s : String) : String :=
  if s.length < w then ⟨List.replicate (w - s.length) '0'⟩ ++ s else s

/-- The treatment `time_convert` applies to each of the hour, minute
and second components: `"00" if v == 0 else str(v)`, followed by
`if len(x) == 1: x = '0' + x`. -/
def pad2Py (v : Int) : String :=
  let s0 := if v = 0 then "00" else intToStr v
  if s0.length = 1 then "0" ++ s0 else s0

/-- `time_convert(ms)` from `utils/subtitle_utils.py`: milliseconds to
the SRT time string, via Python floor division/modulus, `str(...)` on
each component, the `"00"` shortcuts and one-character zero padding
(`pad2Py` on each component), and `zfill(3)` on the milliseconds. -/
def timeConvert (ms : Int) : String :=
  let tail := pyMod ms 1000
  let s := pyDiv ms 1000
  let mi := pyDiv s 60
  let s2 := pyMod s 60
  let h := pyDiv mi 60
  let mi2 := pyMod mi 60
  pad2Py h ++ ":" ++ pad2Py mi2 ++ ":" ++ pad2Py s2 ++ "," ++ zfill 3 (intToStr tail)

/-! ### Python `str.replace` -/

/-- One scan step of Python `str.replace`: at each position, replace a
(non-empty) occurrence of `pat` and jump past it, otherwise keep the
character.  `fuel ≥` length of the scanned list is enough. -/
def pyReplaceAux (pat rep : List Char) : Nat → List Char → List Char
  | 0, s => s
  | _ + 1, [] => []
  | fuel + 1, c :: cs =>
    if pat.isPrefixOf (c :: cs) then rep ++ pyReplaceAux pat rep fuel ((c :: cs).drop pat.length)
    else c :: pyReplaceAux pat rep fuel cs

/-- Python `s.replace(pat, rep)`: every non-overlapping occurrence of
`pat`, scanned left to right, is replaced by `rep`; an empty `pat`
inserts `rep` at every gap, as Python does. -/
def pyReplace (s pat rep : String) : String :=
  if pat.data.isEmpty then
    ⟨rep.data ++ s.data.foldr (fun c acc => c :: (rep.data ++ acc)) []⟩
  else ⟨pyReplaceAux pat.data rep.data s.data.length s.data⟩

/-! ### The heterogeneous `timestamp` values -/

/-- One element of a `timestamp` list: a number, or an inner
list/tuple of numbers. -/
inductive TsElem where
  | num : Int → TsElem
  | seq : List Int → TsElem
deriving DecidableEq

/-- A `timestamp` value as received from the upstream ASR engine:
either not a list at all (`None` or any non-list value), or a list of
elements. -/
inductive TsVal where
  | notList : TsVal
  | arr : List TsElem → TsVal
deriving DecidableEq

/-- A Python value flowing where a number is expected: an actual
integer, or a non-numeric object (an inner list that leaked through the
flat-pair branch). -/
inductive PyNum where
  | int : Int → PyNum
  | obj : List Int → PyNum
deriving DecidableEq

/-- The message of the `TypeError` raised by `-` on a non-numeric
operand. -/
def typeErrorMsg : String := "TypeError: unsupported operand type(s) for -"

/-- The message of the `IndexError` raised by indexing a too-short
inner list. -/
def indexErrorMsg : String := "IndexError: list index out of range"

/-- Python `-` on two such values: defined on integers, a `TypeError`
otherwise. -/
def PyNum.sub : PyNum → PyNum → Except String Int
  | .int a, .int b => .ok (a - b)
  | _, _ => .error typeErrorMsg

/-- How a timestamp element reads when used as a plain value. -/
def elemToPyNum : TsElem → PyNum
  | .num n => .int n
  | .seq l => .obj l

/-- The flat branch of the normalization: `start = ts[0]`,
`end = ts[1] if len(ts) > 1 else 0`, the entries taken as they are. -/
def flatBounds (e : TsElem) (rest : List TsElem) : PyNum × PyNum :=
  (elemToPyNum e,
    match rest with
    | [] => .int 0
    | r :: _ => elemToPyNum r)

/-- The timestamp normalization block of `generate_srt` (performed
once for the first sentence and once per later sentence, with
identical code): a non-empty list whose first element is a pair-like
inner list of length at least 2 yields `(ts[0][0], ts[-1][1])`, raising
when the last element cannot be indexed at 1; any other non-empty list
is treated as a flat `[start, end]` pair, whose entries need not be
numbers; a non-list or empty list defaults to `(0, 0)`. -/
def tsBounds : TsVal → Except String (PyNum × PyNum)
  | .notList => .ok (.int 0, .int 0)
  | .arr [] => .ok (.int 0, .int 0)
  | .arr (e :: rest) =>
    match e with
    | .num _ => .ok (flatBounds e rest)
    | .seq l =>
      if 2 ≤ l.length then
        match List.getLastD (e :: rest) e with
        | .num _ => .error typeErrorMsg
        | .seq l2 =>
          if 2 ≤ l2.length then .ok (.int (l.headD 0), .int (l2.getD 1 0))
          else .error indexErrorMsg
      else .ok (flatBounds e rest)

/-- One recognized sentence handed to `generate_srt`: the `text`
field, the `timestamp` field and the optional `spk` field (absent when
diarization is disabled, as `sent.get('spk', None)`). -/
structure Sentence where
  text : String
  timestamp : TsVal
  spk : Option Int
deriving DecidableEq

/-! ### `Text2SRT` -/

/-- The `Text2SRT` object as `generate_srt` builds it: the text (a
plain string there) and the start/end milliseconds extracted in
`__init__`. -/
structure Text2SRT where
  token_list : String
  start_sec : Int
  end_sec : Int
deriving DecidableEq

/-- `Text2SRT(current_text, [(current_start, current_end)])`:
`__init__` computes `timestamp[0][0] - offset` and
`timestamp[-1][1] - offset` with `offset = 0`, raising a `TypeError`
when a bound is not a number. -/
def Text2SRT.make (text : String) (start stop : PyNum) : Except String Text2SRT :=
  match PyNum.sub start (.int 0) with
  | .error e => .error e
  | .ok s =>
    match PyNum.sub stop (.int 0) with
    | .error e => .error e
    | .ok e2 => .ok ⟨text, s, e2⟩

/-- `Text2SRT.text()`: the token list is a string here, returned
as-is. -/
def Text2SRT.text (t : Text2SRT) : String := t.token_list

/-- `Text2SRT.srt()` at the default `acc_ost = 0`. -/
def Text2SRT.srt (t : Text2SRT) : String :=
  timeConvert t.start_sec ++ " --> " ++ timeConvert t.end_sec ++ "\n" ++ t.text ++ "\n"

/-! ### `generate_srt` -/

/-- The speaker marker written in front of a cue text. -/
def spkMarker (k : Int) : String := "[spk" ++ intToStr k ++ "] "

/-- Writing one merged entry: build the `Text2SRT`, and when a speaker
is present replace `current_text` inside the rendered block by the
speaker-prefixed text (Python `str.replace`, hence every occurrence),
then frame it with the index line and a blank line. -/
def emitEntry (index : Nat) (spk : Option Int) (cur_text : String)
    (start stop : PyNum) : Except String String :=
  match Text2SRT.make cur_text start stop with
  | .error e => .error e
  | .ok t2s =>
    match spk with
    | some k =>
      .ok (natToStr index ++ "\n" ++ pyReplace t2s.srt cur_text (spkMarker k ++ cur_text) ++ "\n")
    | none => .ok (natToStr index ++ "\n" ++ t2s.srt ++ "\n")

/-- The merging loop of `generate_srt` over the sentences after the
first, carrying the accumulated output, the next index and the open
entry (`current_spk`, `current_start`, `current_end`,
`current_text`). -/
def generateSrtLoop (t : Int) (srt_total : String) (index : Nat) (cur_spk : Option Int)
    (cur_start cur_end : PyNum) (cur_text : String) : List Sentence → Except String String
  | [] =>
    match emitEntry index cur_spk cur_text cur_start cur_end with
    | .error e => .error e
    | .ok entry => .ok (srt_total ++ entry)
  | sent :: rest =>
    match tsBounds sent.timestamp with
    | .error e => .error e
    | .ok (sent_start, sent_end) =>
      match PyNum.sub sent_start cur_end with
      | .error e => .error e
      | .ok gap =>
        if sent.spk = cur_spk ∧ gap ≤ t then
          generateSrtLoop t srt_total index cur_spk cur_start sent_end
            (cur_text ++ " " ++ sent.text) rest
        else
          match emitEntry index cur_spk cur_text cur_start cur_end with
          | .error e => .error e
          | .ok entry =>
            generateSrtLoop t (srt_total ++ entry) (index + 1) sent.spk sent_start sent_end
              sent.text rest

/-- `generate_srt(sentence_list, merge_threshold)`: empty input yields
the empty string; otherwise the first sentence opens the current entry
and the loop folds or emits the rest, emitting the last open entry at
the end. -/
def generate_srt (sentence_list : List Sentence) (merge_threshold : Int := 8000) :
    Except String String :=
  match sentence_list with
  | [] => .ok ""
  | first :: rest =>
    match tsBounds first.timestamp with
    | .error e => .error e
    | .ok (s, e) => generateSrtLoop merge_threshold "" 1 first.spk s e first.text rest

/-! ### The merge loop on normalized fragments

For sentences whose bounds normalize to integers, the state of the
loop above is the open cue (`current_spk`, `current_start`,
`current_end`, `current_text`); `mergeLoop` is that loop with the
string accumulation factored out (the bridge lemma below proves
`generate_srt` equal to `mergeCues` followed by rendering). -/

/-- A sentence whose timestamp bounds normalized to integers. -/
structure NFrag where
  text : String
  start : Int
  stop : Int
  spk : Option Int
deriving DecidableEq

/-- One merged subtitle entry before rendering. -/
structure Cue where
  spk : Option Int
  start : Int
  stop : Int
  text : String
deriving DecidableEq

/-- Opening a cue from a fragment (re-initializing the merging
variables). -/
def cueOf (f : NFrag) : Cue := ⟨f.spk, f.start, f.stop, f.text⟩

/-- Folding a fragment into the open cue: the end time is always
overwritten with the fragment's end, the text is extended with a space
and the fragment's text. -/
def foldCue (c : Cue) (f : NFrag) : Cue :=
  { c with stop := f.stop, text := c.text ++ " " ++ f.text }

/-- The merging loop: fold when the speaker matches and the gap is at
most the threshold, otherwise close the open cue and open a new one. -/
def mergeLoop (t : Int) (c : Cue) : List NFrag → List Cue
  | [] => [c]
  | f :: fs =>
    if f.spk = c.spk ∧ f.start - c.stop ≤ t then mergeLoop t (foldCue c f) fs
    else c :: mergeLoop t (cueOf f) fs

/-- The cue sequence `generate_srt` emits for normalized fragments. -/
def mergeCues (t : Int) : List NFrag → List Cue
  | [] => []
  | f :: fs => mergeLoop t (cueOf f) fs

/-- The normalized fragment of a sentence, when its bounds are
integers. -/
def sentNorm? (s : Sentence) : Option NFrag :=
  match tsBounds s.timestamp with
  | .ok (.int a, .int b) => some ⟨s.text, a, b, s.spk⟩
  | _ => none

/-- A sentence whose timestamp bounds normalize to integers, so that
the loop performs no failing Python operation on it. -/
def WellShaped (s : Sentence) : Prop := (sentNorm? s).isSome = true

instance (s : Sentence) : Decidable (WellShaped s) := by
  unfold WellShaped; infer_instance

/-- The normalized fragment of a well-shaped sentence. -/
def nfragOf (s : Sentence) : NFrag := (sentNorm? s).getD ⟨s.text, 0, 0, s.spk⟩

/-- The block `generate_srt` appends for one closed cue (index line,
`Text2SRT.srt()` output with the speaker substitution, blank line). -/
def entryStr (index : Nat) (c : Cue) : String :=
  match c.spk with
  | some k =>
    natToStr index ++ "\n" ++
      pyReplace (timeConvert c.start ++ " --> " ++ timeConvert c.stop ++ "\n" ++ c.text ++ "\n")
        c.text (spkMarker k ++ c.text) ++ "\n"
  | none =>
    natToStr index ++ "\n" ++
      (timeConvert c.start ++ " --> " ++ timeConvert c.stop ++ "\n" ++ c.text ++ "\n") ++ "\n"

/-- Rendering a cue list with consecutive indices starting at
`index`. -/
def renderFrom (index : Nat) : List Cue → String
  | [] => ""
  | c :: cs => entryStr index c ++ renderFrom (index + 1) cs

/-! ### Specification-side definitions

The following definitions follow the words of the specification and of
the claims (boundary pairs, chunking at boundaries, one cue per chunk,
well-formed rendered blocks); the theorems below compare them with the
code-derived definitions above. -/

/-- Claim wording: a cue boundary is forced between adjacent fragments
exactly when the speakers differ or the start-to-end gap exceeds the
threshold. -/
def Boundary (t : Int) (a b : NFrag) : Prop := a.spk ≠ b.spk ∨ t < b.start - a.stop

instance (t : Int) (a b : NFrag) : Decidable (Boundary t a b) := by
  unfold Boundary; infer_instance

/-- Claim wording: split the fragment sequence exactly at each
adjacent boundary pair. -/
def splitAtBoundaries (t : Int) : List NFrag → List (List NFrag)
  | [] => []
  | [f] => [[f]]
  | f :: g :: fs =>
    match splitAtBoundaries t (g :: fs) with
    | [] => [[f]]
    | c :: cs => if Boundary t f g then [f] :: c :: cs else (f :: c) :: cs

/-- A single separating space in front of each further text of a
chunk. -/
def sepTexts : List NFrag → String
  | [] => ""
  | g :: gs => " " ++ g.text ++ sepTexts gs

/-- Spec wording for the cue of one chunk: speaker and start of the
first fragment, end of the last fragment, the texts joined by single
spaces in fold order. -/
def runToCue : List NFrag → Cue
  | [] => ⟨none, 0, 0, ""⟩
  | f :: fs => ⟨f.spk, f.start, (List.getLastD fs f).stop, f.text ++ sepTexts fs⟩

/-- An emitted cue re-presented as a single-interval fragment (for the
idempotence claim). -/
def cueToFrag (c : Cue) : NFrag := ⟨c.text, c.start, c.stop, c.spk⟩

/-- Spec wording for the hours field: the decimal hours, zero-padded
to at least two digits and never truncated. -/
def hoursField (h : Nat) : String :=
  if h < 10 then "0" ++ natToStr h else natToStr h

/-- Spec wording for one rendered cue block: index line, time-range
line, text line with the speaker marker (applied once), and a trailing
blank line. -/
def cleanBlock (index : Nat) (c : Cue) : String :=
  natToStr index ++ "\n" ++ timeConvert c.start ++ " --> " ++ timeConvert c.stop ++ "\n" ++
    (match c.spk with
      | some k => spkMarker k
      | none => "") ++ c.text ++ "\n" ++ "\n"

/-- Spec wording for the whole output: the cue blocks in order, with
1-based indices increasing by 1 and nothing after the last block. -/
def renderCleanFrom (index : Nat) : List Cue → String
  | [] => ""
  | c :: cs => cleanBlock index c ++ renderCleanFrom (index + 1) cs

/-- The time-range line (with its newline) in front of the text inside
one `Text2SRT.srt()` block. -/
def timeLine (c : Cue) : List Char :=
  (timeConvert c.start ++ " --> " ++ timeConvert c.stop ++ "\n").data

/-- The cue text can be substituted safely: it is non-empty, its first
occurrence in the rendered block is the text line itself, and it does
not occur after it.  Under this condition the Python `str.replace` in
the emission rewrites exactly the text line. -/
def ReplaceSafe (c : Cue) : Prop :=
  c.text.data ≠ [] ∧
    (∀ i < (timeLine c).length,
      c.text.data.isPrefixOf ((timeLine c ++ c.text.data ++ ['\n']).drop i) = false) ∧
    c.text.data.isPrefixOf ['\n'] = false

instance (c : Cue) : Decidable (ReplaceSafe c) := by
  unfold ReplaceSafe; infer_instance

/-- The emission of a cue is clean: either no speaker is present (no
substitution happens) or the text is substitution-safe. -/
def TextSafe (c : Cue) : Prop := c.spk = none ∨ ReplaceSafe c

instance (c : Cue) : Decidable (TextSafe c) := by
  unfold TextSafe; infer_instance

/-- A default fragment, used only to state head/last relations. -/
def dFrag : NFrag := ⟨"", 0, 0, none⟩

/-! ### Concrete inputs and expected outputs used by the theorems -/

/-- Fragment `A` of the specification scenario. -/
def sentA : Sentence := { text := "A", timestamp := .arr [.seq [0, 2000]], spk := some 0 }

/-- Fragment `B` of the specification scenario. -/
def sentB : Sentence := { text := "B", timestamp := .arr [.seq [2100, 4000]], spk := some 0 }

/-- Fragment `C` of the specification scenario. -/
def sentC : Sentence := { text := "C", timestamp := .arr [.seq [4050, 6000]], spk := some 0 }

/-- Fragment `D` of the specification scenario (speaker 1). -/
def sentD : Sentence := { text := "D", timestamp := .arr [.seq [6500, 8000]], spk := some 1 }

/-- Fragment `E` of the specification scenario (speaker 0 resumes). -/
def sentE : Sentence := { text := "E", timestamp := .arr [.seq [8200, 10000]], spk := some 0 }

/-- The five-fragment input of the specification scenario. -/
def scenarioList : List Sentence := [sentA, sentB, sentC, sentD, sentE]

/-- The three cues the scenario is expected to merge into at
threshold 1000. -/
def scenarioCues : List Cue :=
  [{ spk := some 0, start := 0, stop := 6000, text := "A B C" },
   { spk := some 1, start := 6500, stop := 8000, text := "D" },
   { spk := some 0, start := 8200, stop := 10000, text := "E" }]

/-- The SRT output expected for the scenario at threshold 1000. -/
def scenarioSrt : String :=
  "1\n00:00:00,000 --> 00:00:06,000\n[spk0] A B C\n\n2\n00:00:06,500 --> 00:00:08,000\n[spk1] D\n\n3\n00:00:08,200 --> 00:00:10,000\n[spk0] E\n\n"

/-- Fragment `B` with an end time (1900) earlier than the end of the
preceding fragment `A` (2000). -/
def sentBearly : Sentence := { text := "B", timestamp := .arr [.seq [2100, 1900]], spk := some 0 }

/-- The SRT output expected for `[A, B-early]` at threshold 1000: the
merged cue ends at the last fragment's 1900, not at `max` 2000. -/
def overwriteSrt : String := "1\n00:00:00,000 --> 00:00:01,900\n[spk0] A B\n\n"

/-- A sentence whose `timestamp` is a non-empty list whose first
element is a one-element inner list: neither of the two recognized
shapes. -/
def badSeqSentence : Sentence := { text := "x", timestamp := .arr [.seq [5]], spk := none }

/-- A sentence whose `timestamp` is `None` (no interval data). -/
def noTsSentence : Sentence := { text := "x", timestamp := .notList, spk := none }

/-- A speaker-tagged sentence whose text `"0"` also occurs inside the
rendered time-range line. -/
def zeroTextSentence : Sentence := { text := "0", timestamp := .arr [.seq [0, 1]], spk := some 0 }

/-- The single well-formed block the specification predicts for
`[zeroTextSentence]`. -/
def zeroTextClean : String := "1\n00:00:00,000 --> 00:00:00,001\n[spk0] 0\n\n"

/-- What `generate_srt` actually produces for `[zeroTextSentence]`:
`str.replace` rewrites every occurrence of `"0"`, time-range line
included. -/
def zeroTextMangled : String :=
  "1\n[spk0] 0[spk0] 0:[spk0] 0[spk0] 0:[spk0] 0[spk0] 0,[spk0] 0[spk0] 0[spk0] 0 --> [spk0] 0[spk0] 0:[spk0] 0[spk0] 0:[spk0] 0[spk0] 0,[spk0] 0[spk0] 01\n[spk0] 0\n\n"

/-! ### Lemmas on decimal rendering -/

theorem natToStrAux_length {fuel n : Nat} (acc : List Char) (h : n < fuel) :
    acc.length + 1 ≤ (natToStrAux fuel n acc).length := by
  induction fuel generalizing n acc with
  | zero => omega
  | succ fuel ih =>
    unfold natToStrAux
    by_cases h10 : n < 10
    · simp [h10]
    · have hrec : n / 10 < fuel := by omega
      have := ih (decDigit (n % 10) :: acc) hrec
      simp only [h10, if_false]
      simp at this
      omega

theorem natToStrAux_length_two {fuel n : Nat} (acc : List Char) (h : n < fuel) (h10 : 10 ≤ n) :
    acc.length + 2 ≤ (natToStrAux fuel n acc).length := by
  cases fuel with
  | zero => omega
  | succ fuel =>
    unfold natToStrAux
    have h10' : ¬ n < 10 := by omega
    have hrec : n / 10 < fuel := by omega
    have := natToStrAux_length (decDigit (n % 10) :: acc) hrec
    simp only [h10', if_false]
    simp at this
    omega

theorem natToStr_length_pos (n : Nat) : 1 ≤ (natToStr n).length := by
  have := @natToStrAux_length (n + 1) n [] (by omega)
  simpa [natToStr] using this

theorem natToStr_ne_empty (n : Nat) : natToStr n ≠ "" := by
  intro h
  have := natToStr_length_pos n
  rw [h] at this
  simp at this

theorem natToStr_length_one {n : Nat} (h : n < 10) : (natToStr n).length = 1 := by
  simp [natToStr, natToStrAux, h]

theorem natToStr_length_two {n : Nat} (h : 10 ≤ n) : 2 ≤ (natToStr n).length := by
  have := @natToStrAux_length_two (n + 1) n [] (by omega) h
  simpa [natToStr] using this

/-- `str(i)` of a negative integer is a minus sign followed by at
least one digit. -/
theorem intToStr_neg {i : Int} (h : i < 0) :
    intToStr i = "-" ++ natToStr i.natAbs ∧ 2 ≤ (intToStr i).length := by
  have hne : intToStr i = "-" ++ natToStr i.natAbs := by simp [intToStr, h]
  refine ⟨hne, ?_⟩
  rw [hne, String.length_append]
  have h1 : ("-" : String).length = 1 := rfl
  have := natToStr_length_pos i.natAbs
  omega

/-! ### Lemmas on `pyReplace` -/

theorem isPrefixOf_append_self (p rest : List Char) : p.isPrefixOf (p ++ rest) = true := by
  induction p with
  | nil => simp
  | cons a as ih => simp [List.isPrefixOf_cons₂, ih]

theorem pyReplaceAux_no_match (pat rep : List Char) :
    ∀ (s : List Char) (fuel : Nat),
      (∀ i < s.length, pat.isPrefixOf (s.drop i) = false) →
      pyReplaceAux pat rep fuel s = s := by
  intro s
  induction s with
  | nil => intro fuel _; cases fuel <;> rfl
  | cons c cs ih =>
    intro fuel hno
    cases fuel with
    | zero => rfl
    | succ fuel =>
      have h0 : pat.isPrefixOf (c :: cs) = false := by simpa using hno 0 (by simp)
      unfold pyReplaceAux
      rw [h0]
      simp only [Bool.false_eq_true, if_false]
      rw [ih fuel]
      intro i hi
      simpa using hno (i + 1) (by simp; omega)

theorem pyReplaceAux_single (pat rep post : List Char) (hp : pat ≠ [])
    (hpost : ∀ i < post.length, pat.isPrefixOf (post.drop i) = false) :
    ∀ (pre : List Char) (fuel : Nat), (pre ++ pat ++ post).length ≤ fuel →
      (∀ i < pre.length, pat.isPrefixOf ((pre ++ pat ++ post).drop i) = false) →
      pyReplaceAux pat rep fuel (pre ++ pat ++ post) = pre ++ rep ++ post := by
  intro pre
  induction pre with
  | nil =>
    intro fuel hfuel _
    simp only [List.nil_append] at hfuel ⊢
    obtain ⟨a, as, rfl⟩ : ∃ a as, pat = a :: as := by
      cases pat with
      | nil => exact absurd rfl hp
      | cons a as => exact ⟨a, as, rfl⟩
    cases fuel with
    | zero => simp at hfuel
    | succ fuel =>
      show pyReplaceAux (a :: as) rep (fuel + 1) (a :: (as ++ post)) = rep ++ post
      unfold pyReplaceAux
      rw [show a :: (as ++ post) = (a :: as) ++ post from rfl,
        isPrefixOf_append_self (a :: as) post]
      simp only [if_true]
      rw [List.drop_left]
      rw [pyReplaceAux_no_match (a :: as) rep post fuel hpost]
  | cons p pre' ih =>
    intro fuel hfuel hpre
    have h0 : pat.isPrefixOf (p :: (pre' ++ pat ++ post)) = false := by
      simpa using hpre 0 (by simp)
    cases fuel with
    | zero => simp at hfuel
    | succ fuel =>
      show pyReplaceAux pat rep (fuel + 1) (p :: (pre' ++ pat ++ post)) = _
      have hshift : ∀ i < pre'.length, pat.isPrefixOf ((pre' ++ pat ++ post).drop i) = false := by
        intro i hi
        simpa using hpre (i + 1) (by simp; omega)
      unfold pyReplaceAux
      rw [h0]
      simp only [Bool.false_eq_true, if_false]
      rw [ih fuel (by simp at hfuel ⊢; omega) hshift]
      rfl

/-- Python `str.replace` when the (non-empty) pattern occurs exactly
once, as the given middle part: only that occurrence is rewritten. -/
theorem pyReplace_single (pre pat post rep : String) (hp : pat.data ≠ [])
    (hpre : ∀ i < pre.data.length,
      pat.data.isPrefixOf ((pre.data ++ pat.data ++ post.data).drop i) = false)
    (hpost : ∀ i < post.data.length, pat.data.isPrefixOf (post.data.drop i) = false) :
    pyReplace (pre ++ pat ++ post) pat rep = pre ++ rep ++ post := by
  unfold pyReplace
  have hemp : pat.data.isEmpty = false := by
    cases h : pat.data with
    | nil => exact absurd h hp
    | cons a as => rfl
  rw [hemp]
  simp only [Bool.false_eq_true, if_false]
  apply String.ext
  show pyReplaceAux pat.data rep.data (pre ++ pat ++ post).data.length (pre ++ pat ++ post).data
      = (pre ++ rep ++ post).data
  simp only [String.data_append]
  rw [pyReplaceAux_single pat.data rep.data post.data hp hpost pre.data
    (pre.data ++ pat.data ++ post.data).length (by simp) hpre]

/-! ### Clean rendering of safe cues -/

theorem entryStr_clean (index : Nat) (c : Cue) (h : TextSafe c) :
    entryStr index c = cleanBlock index c := by
  cases hspk : c.spk with
  | none =>
    simp only [entryStr, cleanBlock, hspk]
    apply String.ext
    simp [String.data_append]
  | some k =>
    have hsafe : ReplaceSafe c := by
      rcases h with hnone | hsafe
      · rw [hnone] at hspk; cases hspk
      · exact hsafe
    obtain ⟨hne, hpre, hpost⟩ := hsafe
    have hrepl :
        pyReplace
          ((timeConvert c.start ++ " --> " ++ timeConvert c.stop ++ "\n") ++ c.text ++ "\n")
          c.text (spkMarker k ++ c.text)
        = (timeConvert c.start ++ " --> " ++ timeConvert c.stop ++ "\n") ++
            (spkMarker k ++ c.text) ++ "\n" := by
      apply pyReplace_single _ _ _ _ hne
      · exact hpre
      · intro i hi
        have hi0 : i = 0 := by
          have : (("\n" : String).data).length = 1 := rfl
          omega
        subst hi0
        exact hpost
    simp only [entryStr, cleanBlock, hspk]
    rw [show timeConvert c.start ++ " --> " ++ timeConvert c.stop ++ "\n" ++ c.text ++ "\n"
        = (timeConvert c.start ++ " --> " ++ timeConvert c.stop ++ "\n") ++ c.text ++ "\n" from by
      simp [String.append_assoc]]
    rw [hrepl]
    apply String.ext
    simp [String.data_append]

theorem renderFrom_clean (cs : List Cue) :
    ∀ index : Nat, (∀ c ∈ cs, TextSafe c) → renderFrom index cs = renderCleanFrom index cs := by
  induction cs with
  | nil => intro index _; rfl
  | cons c cs ih =>
    intro index hall
    simp only [renderFrom, renderCleanFrom]
    rw [entryStr_clean index c (hall c (by simp)),
      ih (index + 1) (fun d hd => hall d (by simp [hd]))]

/-! ### The greedy loop against boundary chunking -/

theorem splitAtBoundaries_shape (t : Int) (f : NFrag) (fs : List NFrag) :
    ∃ r rs, splitAtBoundaries t (f :: fs) = (f :: r) :: rs := by
  induction fs generalizing f with
  | nil => exact ⟨[], [], rfl⟩
  | cons g gs ih =>
    obtain ⟨r, rs, hr⟩ := ih g
    by_cases hb : Boundary t f g
    · exact ⟨[], (g :: r) :: rs, by simp [splitAtBoundaries, hr, hb]⟩
    · exact ⟨g :: r, rs, by simp [splitAtBoundaries, hr, hb]⟩

theorem foldl_foldCue_spec (fs : List NFrag) :
    ∀ c : Cue, fs.foldl foldCue c =
      ⟨c.spk, c.start, (fs.map NFrag.stop).getLastD c.stop, c.text ++ sepTexts fs⟩ := by
  induction fs with
  | nil => intro c; cases c; simp [sepTexts]
  | cons g gs ih =>
    intro c
    rw [List.foldl_cons, ih (foldCue c g)]
    simp only [foldCue, List.map_cons, List.getLastD_cons]
    congr 1
    apply String.ext
    simp [sepTexts, String.data_append]

theorem getLastD_map_stop (fs : List NFrag) :
    ∀ f : NFrag, (fs.map NFrag.stop).getLastD f.stop = (List.getLastD fs f).stop := by
  induction fs with
  | nil => intro f; rfl
  | cons g gs ih => intro f; rw [List.map_cons, List.getLastD_cons, List.getLastD_cons, ih g]

theorem runToCue_cons (f : NFrag) (fs : List NFrag) :
    runToCue (f :: fs) = fs.foldl foldCue (cueOf f) := by
  rw [foldl_foldCue_spec]
  simp only [runToCue, cueOf]
  rw [getLastD_map_stop fs f]

theorem mergeLoop_eq_chunks (t : Int) :
    ∀ (fs : List NFrag) (c : Cue) (f : NFrag), c.spk = f.spk → c.stop = f.stop →
      ∀ r rs, splitAtBoundaries t (f :: fs) = (f :: r) :: rs →
        mergeLoop t c fs = r.foldl foldCue c :: rs.map runToCue := by
  intro fs
  induction fs with
  | nil =>
    intro c f _ _ r rs hsplit
    simp only [splitAtBoundaries] at hsplit
    injection hsplit with h1 h2
    injection h1 with _ h1b
    subst h2
    rw [← h1b]
    rfl
  | cons g gs ih =>
    intro c f hspk hstop r rs hsplit
    obtain ⟨r1, rs1, hr1⟩ := splitAtBoundaries_shape t g gs
    simp only [splitAtBoundaries, hr1] at hsplit
    by_cases hb : Boundary t f g
    · rw [if_pos hb] at hsplit
      injection hsplit with h1 h2
      injection h1 with _ h1b
      subst h2
      rw [← h1b]
      have hcond : ¬ (g.spk = c.spk ∧ g.start - c.stop ≤ t) := by
        rcases hb with h1 | h2
        · intro hc; exact h1 (by rw [hspk] at hc; exact hc.1.symm)
        · intro hc; rw [hstop] at hc; omega
      simp only [mergeLoop, if_neg hcond]
      rw [ih (cueOf g) g rfl rfl r1 rs1 hr1]
      simp [runToCue_cons]
    · rw [if_neg hb] at hsplit
      have hfg : f.spk = g.spk ∧ g.start - f.stop ≤ t := by
        unfold Boundary at hb
        push_neg at hb
        exact ⟨hb.1, by omega⟩
      injection hsplit with h1 h2
      injection h1 with _ h1b
      subst h2
      rw [← h1b]
      have hcond : g.spk = c.spk ∧ g.start - c.stop ≤ t := by
        constructor
        · rw [hspk]; exact hfg.1.symm
        · rw [hstop]; exact hfg.2
      simp only [mergeLoop, if_pos hcond]
      rw [List.foldl_cons]
      exact ih (foldCue c g) g (by simp [foldCue, hspk, hfg.1]) rfl r1 rs1 hr1

theorem mergeCues_eq_split (t : Int) (fs : List NFrag) :
    mergeCues t fs = (splitAtBoundaries t fs).map runToCue := by
  cases fs with
  | nil => rfl
  | cons f fs =>
    obtain ⟨r, rs, hr⟩ := splitAtBoundaries_shape t f fs
    rw [show mergeCues t (f :: fs) = mergeLoop t (cueOf f) fs from rfl,
      mergeLoop_eq_chunks t fs (cueOf f) f rfl rfl r rs hr, hr]
    simp [runToCue_cons]

/-! ### Structural properties of the boundary chunking -/

theorem boundary_mono {t1 t2 : Int} (h : t1 ≤ t2) {a b : NFrag} (hb : Boundary t2 a b) :
    Boundary t1 a b := by
  rcases hb with h1 | h2
  · exact Or.inl h1
  · exact Or.inr (by omega)

theorem splitAtBoundaries_length_mono {t1 t2 : Int} (h : t1 ≤ t2) (f : NFrag) (fs : List NFrag) :
    (splitAtBoundaries t2 (f :: fs)).length ≤ (splitAtBoundaries t1 (f :: fs)).length := by
  induction fs generalizing f with
  | nil => simp [splitAtBoundaries]
  | cons g gs ih =>
    obtain ⟨r1, rs1, hr1⟩ := splitAtBoundaries_shape t1 g gs
    obtain ⟨r2, rs2, hr2⟩ := splitAtBoundaries_shape t2 g gs
    have hlen := ih g
    rw [hr1, hr2] at hlen
    simp only [splitAtBoundaries, hr1, hr2]
    by_cases hb2 : Boundary t2 f g
    · rw [if_pos (boundary_mono h hb2), if_pos hb2]
      simpa using hlen
    · by_cases hb1 : Boundary t1 f g
      · rw [if_pos hb1, if_neg hb2]
        simp at hlen ⊢
        omega
      · rw [if_neg hb1, if_neg hb2]
        simpa using hlen

theorem splitAtBoundaries_break (t : Int) (b : NFrag) (l2 : List NFrag) :
    ∀ (l1 : List NFrag) (a : NFrag), Boundary t (List.getLastD l1 a) b →
      splitAtBoundaries t ((a :: l1) ++ b :: l2) =
        splitAtBoundaries t (a :: l1) ++ splitAtBoundaries t (b :: l2) := by
  intro l1
  induction l1 with
  | nil =>
    intro a hb
    obtain ⟨r, rs, hr⟩ := splitAtBoundaries_shape t b l2
    show splitAtBoundaries t (a :: b :: l2) = _
    simp only [splitAtBoundaries, hr]
    rw [if_pos (show Boundary t a b from hb)]
    rfl
  | cons a2 l1' ih =>
    intro a hb
    rw [List.getLastD_cons] at hb
    have ihh := ih a2 hb
    obtain ⟨r2, rs2, hr2⟩ := splitAtBoundaries_shape t a2 l1'
    show splitAtBoundaries t (a :: a2 :: (l1' ++ b :: l2)) = _
    have hinner : splitAtBoundaries t (a2 :: (l1' ++ b :: l2))
        = (a2 :: r2) :: (rs2 ++ splitAtBoundaries t (b :: l2)) := by
      have : (a2 :: l1') ++ b :: l2 = a2 :: (l1' ++ b :: l2) := by simp
      rw [← this, ihh, hr2]
      rfl
    simp only [splitAtBoundaries, hinner, hr2]
    by_cases hab : Boundary t a a2
    · rw [if_pos hab, if_pos hab]
      rfl
    · rw [if_neg hab, if_neg hab]
      rfl

theorem splitAtBoundaries_all_single (t : Int) :
    ∀ l : List NFrag, List.Chain' (fun a b => Boundary t a b) l →
      splitAtBoundaries t l = l.map fun f => [f] := by
  intro l
  induction l with
  | nil => intro _; rfl
  | cons f fs ih =>
    intro hch
    cases fs with
    | nil => rfl
    | cons g gs =>
      have hb : Boundary t f g := (List.chain'_cons.mp hch).1
      have ih2 := ih (List.chain'_cons.mp hch).2
      simp only [splitAtBoundaries, ih2, List.map_cons]
      rw [if_pos hb]

/-- The chunks produced by `splitAtBoundaries`: every chunk is
non-empty with a constant speaker, and a boundary holds between the
last fragment of a chunk and the first fragment of the next. -/
theorem splitAtBoundaries_chunks_spec (t : Int) :
    ∀ l : List NFrag,
      (∀ R ∈ splitAtBoundaries t l, R ≠ [] ∧ ∀ x ∈ R, x.spk = (R.headD dFrag).spk) ∧
      List.Chain' (fun R S => Boundary t (List.getLastD R dFrag) (S.headD dFrag))
        (splitAtBoundaries t l) := by
  intro l
  induction l with
  | nil => exact ⟨by simp [splitAtBoundaries], by simp [splitAtBoundaries]⟩
  | cons f fs ih =>
    cases fs with
    | nil =>
      refine ⟨?_, by simp [splitAtBoundaries]⟩
      intro R hR
      simp only [splitAtBoundaries, List.mem_singleton] at hR
      subst hR
      exact ⟨by simp, by simp⟩
    | cons g gs =>
      obtain ⟨r1, rs1, hr1⟩ := splitAtBoundaries_shape t g gs
      obtain ⟨ihchunks, ihchain⟩ := ih
      rw [hr1] at ihchunks ihchain
      by_cases hb : Boundary t f g
      · have hsplit : splitAtBoundaries t (f :: g :: gs) = [f] :: (g :: r1) :: rs1 := by
          simp only [splitAtBoundaries, hr1]
          rw [if_pos hb]
        rw [hsplit]
        constructor
        · intro R hR
          rcases List.mem_cons.mp hR with hR0 | hR'
          · subst hR0
            exact ⟨by simp, by simp⟩
          · exact ihchunks R hR'
        · rw [List.chain'_cons']
          refine ⟨?_, ihchain⟩
          intro S hS
          simp only [List.head?_cons, Option.mem_def, Option.some.injEq] at hS
          subst hS
          simpa using hb
      · have hsplit : splitAtBoundaries t (f :: g :: gs) = (f :: g :: r1) :: rs1 := by
          simp only [splitAtBoundaries, hr1]
          rw [if_neg hb]
        have hfg : f.spk = g.spk := by
          unfold Boundary at hb
          push_neg at hb
          exact hb.1
        rw [hsplit]
        have hGchunk := ihchunks (g :: r1) (by simp)
        constructor
        · intro R hR
          rcases List.mem_cons.mp hR with hR0 | hR'
          · subst hR0
            refine ⟨by simp, ?_⟩
            intro x hx
            have hxg : x.spk = g.spk := by
              rcases List.mem_cons.mp hx with hx0 | hx'
              · subst hx0; exact hfg
              · simpa using hGchunk.2 x hx'
            simp only [List.headD_cons]
            exact hxg.trans hfg.symm
          · exact ihchunks R (by simp [hR'])
        · rw [List.chain'_cons']
          constructor
          · intro S hS
            have hchain2 := List.chain'_cons'.mp ihchain
            have := hchain2.1 S hS
            simpa [List.getLastD_cons] using this
          · exact (List.chain'_cons'.mp ihchain).2

/-! ### Last-entry end time -/

theorem mergeLoop_ne_nil (t : Int) (fs : List NFrag) (c : Cue) : mergeLoop t c fs ≠ [] := by
  induction fs generalizing c with
  | nil => simp [mergeLoop]
  | cons f fs ih =>
    by_cases hc : f.spk = c.spk ∧ f.start - c.stop ≤ t
    · simp only [mergeLoop, if_pos hc]
      exact ih (foldCue c f)
    · simp only [mergeLoop, if_neg hc]
      simp

theorem mergeLoop_last_stop (t : Int) :
    ∀ (fs : List NFrag) (c : Cue),
      (mergeLoop t c fs).getLast?.map Cue.stop = some ((fs.map NFrag.stop).getLastD c.stop) := by
  intro fs
  induction fs with
  | nil => intro c; rfl
  | cons f fs ih =>
    intro c
    by_cases hc : f.spk = c.spk ∧ f.start - c.stop ≤ t
    · simp only [mergeLoop, if_pos hc]
      rw [ih (foldCue c f)]
      simp only [List.map_cons, List.getLastD_cons]
      rfl
    · cases hml : mergeLoop t (cueOf f) fs with
      | nil => exact absurd hml (mergeLoop_ne_nil t fs (cueOf f))
      | cons d ds =>
        have hne := ih (cueOf f)
        rw [hml] at hne
        simp only [mergeLoop, if_neg hc, hml, List.getLast?_cons_cons]
        rw [hne]
        simp only [List.map_cons, List.getLastD_cons]
        rfl

/-! ### Idempotence of the merge -/

theorem runToCue_single_frag (c : Cue) : runToCue [cueToFrag c] = c := by
  cases c
  simp [runToCue, cueToFrag, sepTexts]

theorem getLastD_mem : ∀ (xs : List NFrag) (x : NFrag), List.getLastD xs x ∈ x :: xs := by
  intro xs
  induction xs with
  | nil => intro x; simp
  | cons y ys ih =>
    intro x
    rw [List.getLastD_cons]
    have := ih y
    simp only [List.mem_cons] at this ⊢
    tauto

theorem chain_transfer (t : Int) :
    ∀ Rs : List (List NFrag),
      (∀ R ∈ Rs, R ≠ [] ∧ ∀ x ∈ R, x.spk = (R.headD dFrag).spk) →
      List.Chain' (fun R S => Boundary t (List.getLastD R dFrag) (S.headD dFrag)) Rs →
      List.Chain' (fun R S => Boundary t (cueToFrag (runToCue R)) (cueToFrag (runToCue S))) Rs := by
  intro Rs
  induction Rs with
  | nil => intro _ _; simp
  | cons R Rs ih =>
    intro hch hchain
    rw [List.chain'_cons'] at hchain ⊢
    refine ⟨?_, ih (fun S hS => hch S (by simp [hS])) hchain.2⟩
    intro S hS
    have hPS := hchain.1 S hS
    have hSmem : S ∈ Rs := List.mem_of_mem_head? hS
    have hR := hch R (by simp)
    have hS2 := hch S (by simp [hSmem])
    obtain ⟨x, xs, rfl⟩ : ∃ x xs, R = x :: xs := by
      cases R with
      | nil => exact absurd rfl hR.1
      | cons x xs => exact ⟨x, xs, rfl⟩
    obtain ⟨y, ys, rfl⟩ : ∃ y ys, S = y :: ys := by
      cases S with
      | nil => exact absurd rfl hS2.1
      | cons y ys => exact ⟨y, ys, rfl⟩
    have hlastspk : (List.getLastD (x :: xs) dFrag).spk = x.spk := by
      rw [List.getLastD_cons]
      have := hR.2 (List.getLastD xs x) (getLastD_mem xs x)
      simpa using this
    have hlaststop :
        (cueToFrag (runToCue (x :: xs))).stop = (List.getLastD (x :: xs) dFrag).stop := by
      rw [List.getLastD_cons]
      simp [cueToFrag, runToCue]
    rcases hPS with hspk | hgap
    · left
      simp only [cueToFrag, runToCue]
      intro heq
      apply hspk
      simp only [List.headD_cons] at heq ⊢
      rw [← hlastspk] at heq
      simpa [List.getLastD_cons] using heq
    · right
      rw [hlaststop]
      simpa [cueToFrag, runToCue, List.getLastD_cons] using hgap

theorem mergeCues_chain_boundary (t : Int) (fs : List NFrag) :
    List.Chain' (fun a b => Boundary t a b) ((mergeCues t fs).map cueToFrag) := by
  rw [mergeCues_eq_split, List.map_map, List.chain'_map]
  obtain ⟨hchunks, hchain⟩ := splitAtBoundaries_chunks_spec t fs
  exact chain_transfer t (splitAtBoundaries t fs) hchunks hchain

theorem mergeCues_idempotent (t : Int) (fs : List NFrag) :
    mergeCues t ((mergeCues t fs).map cueToFrag) = mergeCues t fs := by
  rw [mergeCues_eq_split t ((mergeCues t fs).map cueToFrag),
    splitAtBoundaries_all_single t _ (mergeCues_chain_boundary t fs),
    List.map_map, List.map_map]
  rw [show ((runToCue ∘ fun f => [f]) ∘ cueToFrag) = fun c : Cue => runToCue [cueToFrag c] from rfl]
  rw [List.map_congr_left fun c _ => runToCue_single_frag c]
  exact List.map_id _

/-! ### The bridge: `generate_srt` is merge followed by rendering -/

theorem sub_int_zero (x : Int) : PyNum.sub (.int x) (.int 0) = .ok x := by
  simp [PyNum.sub]

theorem emitEntry_ok (index : Nat) (spk : Option Int) (text : String) (a b : Int) :
    emitEntry index spk text (.int a) (.int b) = .ok (entryStr index ⟨spk, a, b, text⟩) := by
  cases spk <;>
    simp [emitEntry, Text2SRT.make, sub_int_zero, Text2SRT.srt, Text2SRT.text, entryStr]

theorem wellShaped_frag {s : Sentence} (h : WellShaped s) :
    ∃ a b, tsBounds s.timestamp = .ok (.int a, .int b) ∧ nfragOf s = ⟨s.text, a, b, s.spk⟩ := by
  unfold WellShaped sentNorm? at h
  unfold nfragOf sentNorm?
  revert h
  cases htb : tsBounds s.timestamp with
  | error e => simp
  | ok p =>
    obtain ⟨p1, p2⟩ := p
    cases p1 with
    | int a =>
      cases p2 with
      | int b => intro _; exact ⟨a, b, rfl, rfl⟩
      | obj _ => simp
    | obj _ => simp

theorem generateSrtLoop_eq (t : Int) :
    ∀ (rest : List Sentence) (acc : String) (index : Nat) (c : Cue),
      (∀ s ∈ rest, WellShaped s) →
      generateSrtLoop t acc index c.spk (.int c.start) (.int c.stop) c.text rest
        = .ok (acc ++ renderFrom index (mergeLoop t c (rest.map nfragOf))) := by
  intro rest
  induction rest with
  | nil =>
    intro acc index c _
    simp only [generateSrtLoop, emitEntry_ok]
    rw [show mergeLoop t c ([].map nfragOf) = [c] from rfl]
    simp [renderFrom]
  | cons s rest ih =>
    intro acc index c hws
    obtain ⟨a, b, hbounds, hfrag⟩ := wellShaped_frag (hws s (by simp))
    have hws' : ∀ u ∈ rest, WellShaped u := fun u hu => hws u (by simp [hu])
    simp only [generateSrtLoop, hbounds]
    rw [show PyNum.sub (.int a) (.int c.stop) = .ok (a - c.stop) from rfl]
    simp only []
    rw [List.map_cons, hfrag]
    by_cases hcond : s.spk = c.spk ∧ a - c.stop ≤ t
    · rw [if_pos hcond]
      have hml : mergeLoop t c (⟨s.text, a, b, s.spk⟩ :: rest.map nfragOf)
          = mergeLoop t (foldCue c ⟨s.text, a, b, s.spk⟩) (rest.map nfragOf) := by
        simp only [mergeLoop]
        rw [if_pos (show NFrag.spk ⟨s.text, a, b, s.spk⟩ = c.spk ∧
          NFrag.start ⟨s.text, a, b, s.spk⟩ - c.stop ≤ t from hcond)]
      rw [hml]
      have := ih acc index (foldCue c ⟨s.text, a, b, s.spk⟩) hws'
      simpa [foldCue] using this
    · rw [if_neg hcond]
      rw [show emitEntry index c.spk c.text (.int c.start) (.int c.stop)
          = .ok (entryStr index c) from emitEntry_ok index c.spk c.text c.start c.stop]
      simp only []
      have hml : mergeLoop t c (⟨s.text, a, b, s.spk⟩ :: rest.map nfragOf)
          = c :: mergeLoop t (cueOf ⟨s.text, a, b, s.spk⟩) (rest.map nfragOf) := by
        simp only [mergeLoop]
        rw [if_neg (show ¬ (NFrag.spk ⟨s.text, a, b, s.spk⟩ = c.spk ∧
          NFrag.start ⟨s.text, a, b, s.spk⟩ - c.stop ≤ t) from hcond)]
      rw [hml]
      have := ih (acc ++ entryStr index c) (index + 1) (cueOf ⟨s.text, a, b, s.spk⟩) hws'
      simp only [cueOf] at this ⊢
      rw [this]
      rw [show renderFrom index ((c : Cue) :: mergeLoop t ⟨s.spk, a, b, s.text⟩ (rest.map nfragOf))
          = entryStr index c ++ renderFrom (index + 1) (mergeLoop t ⟨s.spk, a, b, s.text⟩
            (rest.map nfragOf)) from rfl]
      rw [String.append_assoc]

theorem generate_srt_eq_render (l : List Sentence) (t : Int) (hws : ∀ s ∈ l, WellShaped s) :
    generate_srt l t = .ok (renderFrom 1 (mergeCues t (l.map nfragOf))) := by
  cases l with
  | nil => rfl
  | cons s rest =>
    obtain ⟨a, b, hbounds, hfrag⟩ := wellShaped_frag (hws s (by simp))
    simp only [generate_srt, hbounds]
    have := generateSrtLoop_eq t rest "" 1 ⟨s.spk, a, b, s.text⟩
      (fun u hu => hws u (by simp [hu]))
    rw [show Cue.spk ⟨s.spk, a, b, s.text⟩ = s.spk from rfl] at this
    rw [this]
    rw [List.map_cons, hfrag]
    rfl

/-! ### Field-level properties of `time_convert` -/

theorem intToStr_natCast (n : Nat) : intToStr (n : Int) = natToStr n := by
  have : ¬ ((n : Int) < 0) := by omega
  simp [intToStr, this]

theorem pad2Py_natCast (n : Nat) : pad2Py (n : Int) = hoursField n := by
  unfold pad2Py hoursField
  by_cases h0 : n = 0
  · subst h0
    rfl
  · have hne : ¬ ((n : Int) = 0) := by omega
    rw [if_neg hne, intToStr_natCast]
    by_cases h10 : n < 10
    · rw [if_pos (natToStr_length_one h10), if_pos h10]
    · rw [if_neg ?_, if_neg h10]
      have := natToStr_length_two (by omega : 10 ≤ n)
      omega

theorem hoursField_length (n : Nat) : 2 ≤ (hoursField n).length := by
  unfold hoursField
  by_cases h10 : n < 10
  · rw [if_pos h10, String.length_append]
    have := natToStr_length_pos n
    have h1 : ("0" : String).length = 1 := rfl
    omega
  · rw [if_neg h10]
    exact natToStr_length_two (by omega)

theorem pad2Py_neg {v : Int} (hv : v < 0) : pad2Py v = "-" ++ natToStr v.natAbs := by
  obtain ⟨heq, hlen⟩ := intToStr_neg hv
  unfold pad2Py
  rw [if_neg (by omega : ¬ v = 0), if_neg (by omega : ¬ (intToStr v).length = 1), heq]

/-- On a non-negative input the hours field of `time_convert` is the
full decimal hour value, zero-padded to at least two digits and never
truncated or wrapped. -/
theorem timeConvert_hours (ms : Nat) :
    timeConvert (ms : Int)
      = hoursField (ms / 3600000) ++ ":" ++
        (pad2Py (pyMod (pyDiv ((ms : Int)) 1000 / 60) 60) ++ ":" ++
          pad2Py (pyMod (pyDiv ((ms : Int)) 1000) 60) ++ "," ++
          zfill 3 (intToStr (pyMod ((ms : Int)) 1000)))
      ∧ 2 ≤ (hoursField (ms / 3600000)).length := by
  have h1000 : (0 : Int) ≤ 1000 := by omega
  have h60 : (0 : Int) ≤ 60 := by omega
  have hpy : pyDiv (pyDiv (pyDiv (ms : Int) 1000) 60) 60 = ((ms / 3600000 : Nat) : Int) := by
    simp only [pyDiv]
    rw [Int.fdiv_eq_ediv _ h1000, Int.fdiv_eq_ediv _ h60, Int.fdiv_eq_ediv _ h60]
    omega
  have hmi : pyDiv (pyDiv (ms : Int) 1000) 60 = pyDiv ((ms : Int)) 1000 / 60 := by
    simp only [pyDiv]
    rw [Int.fdiv_eq_ediv _ h60]
  refine ⟨?_, hoursField_length _⟩
  show pad2Py (pyDiv (pyDiv (pyDiv (ms : Int) 1000) 60) 60) ++ ":" ++
      pad2Py (pyMod (pyDiv (pyDiv (ms : Int) 1000) 60) 60) ++ ":" ++
      pad2Py (pyMod (pyDiv (ms : Int) 1000) 60) ++ "," ++
      zfill 3 (intToStr (pyMod (ms : Int) 1000)) = _
  rw [hpy, pad2Py_natCast, hmi]
  apply String.ext
  simp [String.data_append]

/-- On a negative input `time_convert` silently renders a string that
starts with a minus sign (the floor-divided hour value is negative)
instead of rejecting the argument. -/
theorem timeConvert_neg_starts_minus {ms : Int} (h : ms < 0) :
    ∃ rest : String, timeConvert ms = "-" ++ rest := by
  have hs : pyDiv ms 1000 < 0 := Int.fdiv_neg' h (by omega)
  have hmi : pyDiv (pyDiv ms 1000) 60 < 0 := Int.fdiv_neg' hs (by omega)
  have hh : pyDiv (pyDiv (pyDiv ms 1000) 60) 60 < 0 := Int.fdiv_neg' hmi (by omega)
  refine ⟨natToStr (pyDiv (pyDiv (pyDiv ms 1000) 60) 60).natAbs ++ ":" ++
    pad2Py (pyMod (pyDiv (pyDiv ms 1000) 60) 60) ++ ":" ++
    pad2Py (pyMod (pyDiv ms 1000) 60) ++ "," ++
    zfill 3 (intToStr (pyMod ms 1000)), ?_⟩
  show pad2Py (pyDiv (pyDiv (pyDiv ms 1000) 60) 60) ++ ":" ++
      pad2Py (pyMod (pyDiv (pyDiv ms 1000) 60) 60) ++ ":" ++
      pad2Py (pyMod (pyDiv ms 1000) 60) ++ "," ++
      zfill 3 (intToStr (pyMod ms 1000)) = _
  rw [pad2Py_neg hh]
  apply String.ext
  simp [String.data_append]

/-! ### Defaulted timestamps -/

theorem tsBounds_default {v : TsVal} (h : v = .notList ∨ v = .arr []) :
    tsBounds v = .ok (.int 0, .int 0) := by
  rcases h with h | h <;> subst h <;> rfl

theorem wellShaped_of_default {s : Sentence}
    (h : s.timestamp = .notList ∨ s.timestamp = .arr []) :
    WellShaped s ∧ nfragOf s = ⟨s.text, 0, 0, s.spk⟩ := by
  have hb := tsBounds_default h
  constructor
  · unfold WellShaped sentNorm?
    rw [hb]
    rfl
  · unfold nfragOf sentNorm?
    rw [hb]
    rfl

/-! ### The claims -/

/-- C1: the five-fragment scenario at threshold 1000 merges into
exactly three cues — speaker 0 `0 → 6000` with text `A B C`, speaker 1
`6500 → 8000` with text `D`, and speaker 0 again `8200 → 10000` with
text `E` — and `generate_srt` renders exactly the corresponding
three-block SRT string. -/
theorem C1_scenario_three_cues :
    mergeCues 1000 (scenarioList.map nfragOf) = scenarioCues
      ∧ generate_srt scenarioList 1000 = .ok scenarioSrt := by
  constructor
  · decide
  · decide

/-- C2: a fragment is folded into the open cue exactly when its
speaker equals the cue's speaker and the start-to-end gap is at most
the threshold (the `gap = threshold` case merges); an absent speaker
matches only an absent speaker; and two adjacent fragments with
different speakers force a cue boundary regardless of the gap, the
merge output splitting at that pair. -/
theorem C2_merge_predicate (t : Int) (c : Cue) (f g : NFrag)
    (fs xs ys : List NFrag) (i : Int) :
    ((f.spk = c.spk ∧ f.start - c.stop ≤ t) →
        mergeLoop t c (f :: fs) = mergeLoop t (foldCue c f) fs)
    ∧ (¬ (f.spk = c.spk ∧ f.start - c.stop ≤ t) →
        mergeLoop t c (f :: fs) = c :: mergeLoop t (cueOf f) fs)
    ∧ (f.start - c.stop = t → f.spk = c.spk →
        mergeLoop t c (f :: fs) = mergeLoop t (foldCue c f) fs)
    ∧ ((f.spk = some i ∧ c.spk = none) ∨ (f.spk = none ∧ c.spk = some i) →
        mergeLoop t c (f :: fs) = c :: mergeLoop t (cueOf f) fs)
    ∧ (f.spk ≠ g.spk →
        mergeCues t (xs ++ f :: g :: ys) = mergeCues t (xs ++ [f]) ++ mergeCues t (g :: ys)) := by
  have hfold : (f.spk = c.spk ∧ f.start - c.stop ≤ t) →
      mergeLoop t c (f :: fs) = mergeLoop t (foldCue c f) fs := by
    intro hc
    simp only [mergeLoop, if_pos hc]
  have hclose : ¬ (f.spk = c.spk ∧ f.start - c.stop ≤ t) →
      mergeLoop t c (f :: fs) = c :: mergeLoop t (cueOf f) fs := by
    intro hc
    simp only [mergeLoop, if_neg hc]
  refine ⟨hfold, hclose, ?_, ?_, ?_⟩
  · intro hgap hspk
    exact hfold ⟨hspk, by omega⟩
  · intro hcase
    apply hclose
    rcases hcase with ⟨h1, h2⟩ | ⟨h1, h2⟩ <;> intro hc <;>
      rw [h1, h2] at hc <;> exact Option.noConfusion hc.1
  · intro hne
    have hb : Boundary t f g := Or.inl hne
    rw [mergeCues_eq_split, mergeCues_eq_split, mergeCues_eq_split]
    rw [← List.map_append]
    cases xs with
    | nil =>
      have hbreak := splitAtBoundaries_break t g ys [] f hb
      rw [show (([] : List NFrag) ++ f :: g :: ys) = [f] ++ g :: ys from rfl, hbreak]
      simp
    | cons x xs' =>
      have hlast : List.getLastD (xs' ++ [f]) x = f := List.getLastD_concat x f xs'
      have hbreak := splitAtBoundaries_break t g ys (xs' ++ [f]) x (by rw [hlast]; exact hb)
      rw [show ((x :: xs') ++ f :: g :: ys) = (x :: (xs' ++ [f])) ++ g :: ys from by simp,
        hbreak]
      rw [show ((x :: xs') ++ [f]) = x :: (xs' ++ [f]) from by simp]

/-- C2 witness: the inclusive bound fires on the B–C pair at
threshold 50 (gap exactly 50), and the C–D speaker change splits the
merge output. -/
theorem C2_merge_predicate_witness :
    mergeLoop 50 (cueOf (nfragOf sentB)) [nfragOf sentC]
        = mergeLoop 50 (foldCue (cueOf (nfragOf sentB)) (nfragOf sentC)) []
      ∧ mergeCues 50 ([] ++ nfragOf sentC :: nfragOf sentD :: [])
        = mergeCues 50 ([] ++ [nfragOf sentC]) ++ mergeCues 50 (nfragOf sentD :: []) := by
  have h := C2_merge_predicate 50 (cueOf (nfragOf sentB)) (nfragOf sentC) (nfragOf sentD)
    [] [] [] 0
  exact ⟨h.2.2.1 (by decide) (by decide), h.2.2.2.2 (by decide)⟩

/-- C3: `time_convert` maps the eleven specified millisecond values to
exactly the specified SRT strings, and for every non-negative input
its hours field is the full decimal hour count, zero-padded to at
least two digits and never capped. -/
theorem C3_time_convert_values :
    (timeConvert 0 = "00:00:00,000" ∧ timeConvert 1 = "00:00:00,001"
      ∧ timeConvert 5 = "00:00:00,005" ∧ timeConvert 50 = "00:00:00,050"
      ∧ timeConvert 999 = "00:00:00,999" ∧ timeConvert 1000 = "00:00:01,000"
      ∧ timeConvert 1001 = "00:00:01,001" ∧ timeConvert 60000 = "00:01:00,000"
      ∧ timeConvert 3600000 = "01:00:00,000" ∧ timeConvert 3661234 = "01:01:01,234"
      ∧ timeConvert 86400000 = "24:00:00,000")
    ∧ ∀ ms : Nat, ∃ rest : String,
        timeConvert (ms : Int) = hoursField (ms / 3600000) ++ ":" ++ rest
          ∧ 2 ≤ (hoursField (ms / 3600000)).length := by
  constructor
  · decide
  · intro ms
    obtain ⟨h1, h2⟩ := timeConvert_hours ms
    exact ⟨_, h1, h2⟩

/-- C4 counterexample: a fragment whose interval list has the
unrecognized shape `[[5]]` is routed down the flat-pair branch, and
`generate_srt` raises a `TypeError` instead of defaulting the bounds
to zero. -/
theorem C4_counterexample_bad_shape_raises :
    generate_srt [badSeqSentence] 8000 = .error typeErrorMsg := by
  decide

/-- C4 (amended): for every fragment whose interval value is missing
(`None`, i.e. not a list) or an empty list, the normalized start and
end both default to 0 and `generate_srt` does not raise on its
account; but a non-empty interval list of unrecognized element shape
is instead fed down the flat-pair path and raises (see the
counterexample). -/
theorem C4_default_bounds (l : List Sentence) (t : Int)
    (h : ∀ s ∈ l, s.timestamp = .notList ∨ s.timestamp = .arr []) :
    (∃ out, generate_srt l t = .ok out)
      ∧ ∀ s ∈ l, nfragOf s = ⟨s.text, 0, 0, s.spk⟩ := by
  constructor
  · exact ⟨_, generate_srt_eq_render l t fun s hs => (wellShaped_of_default (h s hs)).1⟩
  · intro s hs
    exact (wellShaped_of_default (h s hs)).2

/-- C4 witness: the amended claim on a sentence whose timestamp is
`None`. -/
theorem C4_default_bounds_witness :
    (∃ out, generate_srt [noTsSentence] 8000 = .ok out)
      ∧ ∀ s ∈ [noTsSentence], nfragOf s = ⟨s.text, 0, 0, s.spk⟩ :=
  C4_default_bounds [noTsSentence] 8000 (by decide)

/-- C5 counterexample: `time_convert(-1)` is not rejected; it returns
the string `"-1:59:59,999"` (floor division and floor modulus on the
negative input). -/
theorem C5_counterexample_negative_formats : timeConvert (-1) = "-1:59:59,999" := by
  decide

/-- C5 (amended): negative formatter input is not rejected:
`time_convert` computes with Python floor division/modulus, so the
sub-hour fields stay in range while the hours field becomes negative,
and the returned string starts with a minus sign. -/
theorem C5_negative_not_rejected (ms : Int) (h : ms < 0) :
    ∃ rest : String, timeConvert ms = "-" ++ rest :=
  timeConvert_neg_starts_minus h

/-- C5 witness: the amended claim at `ms = -1`. -/
theorem C5_negative_not_rejected_witness :
    ∃ rest : String, timeConvert (-1) = "-" ++ rest :=
  C5_negative_not_rejected (-1) (by decide)

set_option maxRecDepth 4000 in
/-- C6 counterexample: for the speaker-tagged single fragment with
text `"0"`, the emitted block is not the specified
index/time-range/text framing with the marker applied once — the
Python `replace` rewrites every `"0"`, mangling the time-range line. -/
theorem C6_counterexample_replace_mangles :
    generate_srt [zeroTextSentence] 8000 = .ok zeroTextMangled
      ∧ zeroTextMangled ≠ zeroTextClean := by
  constructor
  · decide
  · decide

/-- C6 (amended): for every non-empty well-shaped input whose cue
texts are substitution-safe (non-empty and occurring nowhere else in
their rendered block — the Python `replace` otherwise rewrites those
occurrences too), the output is exactly the blocks of the merged cues
in order: 1-based indices increasing by 1, time-range line, text line
with the speaker marker applied exactly once, a blank line after each
block and nothing after the last. -/
theorem C6_block_structure (l : List Sentence) (t : Int) (_hne : l ≠ [])
    (hws : ∀ s ∈ l, WellShaped s)
    (hsafe : ∀ c ∈ mergeCues t (l.map nfragOf), TextSafe c) :
    generate_srt l t = .ok (renderCleanFrom 1 (mergeCues t (l.map nfragOf))) := by
  rw [generate_srt_eq_render l t hws, renderFrom_clean _ 1 hsafe]

/-- C6 witness: the amended claim on the five-fragment scenario. -/
theorem C6_block_structure_witness :
    generate_srt scenarioList 1000
      = .ok (renderCleanFrom 1 (mergeCues 1000 (scenarioList.map nfragOf))) :=
  C6_block_structure scenarioList 1000 (by decide) (by decide) (by decide)

/-- C7: folding always overwrites the open cue's end with the folded
fragment's end: for A(0, 2000) and B(2100, 1900) with the same speaker
at threshold 1000, the single merged cue ends at 1900, not at the
running maximum 2000. -/
theorem C7_end_overwrite :
    mergeCues 1000 ([sentA, sentBearly].map nfragOf)
        = [{ spk := some 0, start := 0, stop := 1900, text := "A B" }]
      ∧ generate_srt [sentA, sentBearly] 1000 = .ok overwriteSrt := by
  constructor
  · decide
  · decide

/-- C8: for a fixed fragment sequence the number of emitted cues is
non-increasing as the merge threshold increases. -/
theorem C8_cue_count_antitone (fs : List NFrag) (t1 t2 : Int) (h : t1 ≤ t2) :
    (mergeCues t2 fs).length ≤ (mergeCues t1 fs).length := by
  cases fs with
  | nil => simp [mergeCues]
  | cons f fs' =>
    rw [mergeCues_eq_split, mergeCues_eq_split, List.length_map, List.length_map]
    exact splitAtBoundaries_length_mono h f fs'

/-- C8 witness: the scenario fragments at thresholds 50 and 1000. -/
theorem C8_cue_count_antitone_witness :
    (mergeCues 1000 (scenarioList.map nfragOf)).length
      ≤ (mergeCues 50 (scenarioList.map nfragOf)).length :=
  C8_cue_count_antitone (scenarioList.map nfragOf) 50 1000 (by decide)

/-- C9: the merge is idempotent — re-merging the emitted cues, each
presented as a single-interval fragment with its speaker, bounds and
merged text, under the same threshold returns the same cue list. -/
theorem C9_merge_idempotent (t : Int) (fs : List NFrag) :
    mergeCues t ((mergeCues t fs).map cueToFrag) = mergeCues t fs :=
  mergeCues_idempotent t fs

/-- C10: after each fragment the open cue's end is that fragment's
normalized end (so the last emitted cue always ends at the last
fragment's end), and the greedy loop is equivalent to splitting the
fragment sequence exactly at the adjacent pairs whose speakers differ
or whose gap exceeds the threshold, one cue per chunk. -/
theorem C10_greedy_eq_boundary_split (t : Int) (fs : List NFrag) :
    mergeCues t fs = (splitAtBoundaries t fs).map runToCue
      ∧ ∀ (gs : List NFrag) (g : NFrag),
          ((mergeCues t (gs ++ [g])).getLast?).map Cue.stop = some g.stop := by
  refine ⟨mergeCues_eq_split t fs, ?_⟩
  intro gs g
  cases gs with
  | nil => rfl
  | cons a gs' =>
    show (mergeLoop t (cueOf a) (gs' ++ [g])).getLast?.map Cue.stop = some g.stop
    rw [mergeLoop_last_stop]
    rw [List.map_append]
    simp only [List.map_cons, List.map_nil]
    rw [List.getLastD_concat]

end SubtitleUtils
